/-
Verification of the CodeSprint typing-session engine.

Shallow embedding of the per-keystroke state machine implemented by the
`useTypingEngine` hook (the variant with `totalKeystrokes`/`correctKeystrokes`
counters and inline completion detection) and of `computeMetrics` from
`lib/scoring.ts` (the variant taking optional keystroke counters).

Modelling conventions:
* snippet content is a `List Char`; JS `content[i]` (char or `undefined`)
  becomes `content[i]? : Option Char`;
* timestamps are `Nat` values passed explicitly to each event;
* React state updates queued during one `handleKeyDown` invocation are
  applied sequentially (functional updaters compose, value updates
  overwrite), and `cursorIndexRef.current` keeps the pre-event cursor for
  the whole invocation, exactly as in the source;
* two instrumentation fields are added to the state, not present in the
  source, used only to state observable behaviour: `finishSignals` counts
  the `onFinish()` calls, and `allErrors` records every mismatch entry
  appended to `errorLog`, without the 200-entry cap;
* presentation-only state (`now`, `history`, the published-metrics cache)
  and the timer-driven countdown are outside the per-keystroke machine and
  are not modelled.
-/
import Mathlib

namespace CodeSprint

/-- Session phase, `type Phase = "idle" | "countdown" | "running" | "finished"`. -/
inductive Phase where
  | idle
  | countdown
  | running
  | finished
deriving DecidableEq

/-- One entry of the error log: `{ expected, got, index }`. -/
structure ErrorEntry where
  expected : Char
  got : Char
  index : Nat
deriving DecidableEq

/-- Keyboard events as classified by `handleKeyDown`:
a single printable character (`e.key.length === 1`), the named keys
`Enter`, `Tab`, `Backspace`, the three pure modifiers, and `other` for any
remaining named key (not actionable). -/
inductive Key where
  | char (c : Char)
  | enter
  | tab
  | backspace
  | meta
  | alt
  | control
  | other
deriving DecidableEq

/-- Behavioural preferences injected into the engine. -/
structure Prefs where
  countdownEnabled : Bool
  requireTabForIndent : Bool
deriving DecidableEq

/-- Session state owned by the engine (one field per `useState` that the
keystroke handler touches, plus the two instrumentation fields). -/
structure EngineState where
  phase : Phase
  countdown : Option Nat
  cursorIndex : Nat
  wrongChars : Finset Nat
  startTime : Option Nat
  lastErrorAt : Option Nat
  errorLog : List ErrorEntry
  totalTypedChars : Nat
  totalKeystrokes : Nat
  correctKeystrokes : Nat
  finishSignals : Nat
  allErrors : List ErrorEntry
deriving DecidableEq

/-- The zero state produced by the initial `useState` values. -/
def initialState : EngineState where
  phase := .idle
  countdown := none
  cursorIndex := 0
  wrongChars := ∅
  startTime := none
  lastErrorAt := none
  errorLog := []
  totalTypedChars := 0
  totalKeystrokes := 0
  correctKeystrokes := 0
  finishSignals := 0
  allErrors := []

/-- `reset` sets every session field back to its zero value (the source
also refreshes the display clock `now`, which is not modelled).  The
instrumentation fields are session-scoped, so they restart as well. -/
def reset (_s : EngineState) : EngineState := initialState

/-- `normalizeWhitespace`: map a carriage return to a newline. -/
def normalizeWhitespace (ch : Char) : Char :=
  if ch = '\r' then '\n' else ch

/-- The character a typing key contributes: `Enter` maps to a newline
(`const got = e.key === "Enter" ? "\n" : e.key`). -/
def keyChar : Key → Option Char
  | .char c => some c
  | .enter => some '\n'
  | _ => none

/-- Length of the leading run of space/tab characters of a list
(the scan loop of `autoAdvanceIndentationIfAllowed`). -/
def indentRunLen : List Char → Nat
  | [] => 0
  | c :: rest => if c = ' ' ∨ c = '\t' then indentRunLen rest + 1 else 0

/-- Length of the leading run of space characters of a list
(the manual-Tab scan loop). -/
def spaceRunLen : List Char → Nat
  | [] => 0
  | c :: rest => if c = ' ' then spaceRunLen rest + 1 else 0

/-- Result record of `autoAdvanceIndentationIfAllowed`. -/
structure AutoAdvance where
  advanced : Nat
  nextIndex : Nat
deriving DecidableEq

/-- `autoAdvanceIndentationIfAllowed(index)`: when `index` sits at the
start of a line, scan the run of space/tab characters ahead of it; the
run may be skipped when it is followed by a blank-line terminator
(newline, carriage return or end of content) or when the
require-tab-for-indent preference is off. -/
def autoAdvanceIndentationIfAllowed (content : List Char) (prefs : Prefs)
    (index : Nat) : AutoAdvance :=
  if content.length = 0 then ⟨0, index⟩
  else
    let previousChar : Option Char :=
      if index = 0 then some '\n' else content[index - 1]?
    if index ≠ 0 ∧ previousChar ≠ some '\n' ∧ previousChar ≠ some '\r' then
      ⟨0, index⟩
    else
      let advanced := indentRunLen (content.drop index)
      let target := index + advanced
      if advanced = 0 then ⟨0, index⟩
      else
        let nextChar := content[target]?
        let isBlankLine :=
          nextChar = some '\n' ∨ nextChar = some '\r' ∨ nextChar = none
        if prefs.requireTabForIndent ∧ ¬ isBlankLine then ⟨0, index⟩
        else ⟨advanced, target⟩

/-- Remove from `w` every index in the half-open range `[lo, hi)`
(the `for ... next.delete(i)` loops over wrongChars). -/
def eraseRange (w : Finset Nat) (lo hi : Nat) : Finset Nat :=
  w.filter fun i => i < lo ∨ hi ≤ i

/-- Append an entry to the error log, dropping the oldest entry when the
length exceeds 200 (`next.push(e); if (next.length > 200) next.shift()`). -/
def pushCapped (log : List ErrorEntry) (e : ErrorEntry) : List ErrorEntry :=
  let next := log ++ [e]
  if 200 < next.length then next.drop 1 else next

/-- The implicit-start block: from `idle`, switch to `running`, clear the
countdown and record the start time when unset. -/
def startIfIdle (ts : Nat) (s : EngineState) : EngineState :=
  if s.phase = .idle then
    { s with
      phase := .running
      countdown := none
      startTime := if s.startTime = none then some ts else s.startTime }
  else s

/-- Fixed indent width used by manual Tab handling. -/
def INDENT_WIDTH : Nat := 4

/-- The `e.key === "Tab"` branch of `handleKeyDown`.  Note that when the
auto-advance applies and the target index is still inside the content, the
source queues the auto-advance updates twice: once at the first
application block and once at the reimplementation block that follows, so
`totalTypedChars` receives `2 * advanced` in that case. -/
def handleTab (content : List Char) (prefs : Prefs) (ts : Nat)
    (s : EngineState) : EngineState :=
  if s.phase = .finished then s
  else if s.phase = .countdown then s
  else
    let s1 := startIfIdle ts s
    let s2 := { s1 with totalKeystrokes := s1.totalKeystrokes + 1 }
    let i0 := s.cursorIndex
    let auto := autoAdvanceIndentationIfAllowed content prefs i0
    let s3 :=
      if 0 < auto.advanced then
        { s2 with
          cursorIndex := auto.nextIndex
          totalTypedChars := s2.totalTypedChars + auto.advanced
          wrongChars := eraseRange s2.wrongChars i0 auto.nextIndex }
      else s2
    if content.length ≤ auto.nextIndex then s3
    else if 0 < auto.advanced then
      { s3 with
        cursorIndex := auto.nextIndex
        totalTypedChars := s3.totalTypedChars + auto.advanced
        wrongChars := eraseRange s3.wrongChars i0 auto.nextIndex }
    else
      let advanced := min INDENT_WIDTH (spaceRunLen (content.drop i0))
      if 0 < advanced then
        { s3 with
          cursorIndex := s3.cursorIndex + advanced
          totalTypedChars := s3.totalTypedChars + advanced
          correctKeystrokes := s3.correctKeystrokes + 1
          wrongChars := eraseRange s3.wrongChars i0 (i0 + advanced) }
      else if content[i0]? = some '\t' then
        { s3 with
          cursorIndex := s3.cursorIndex + 1
          totalTypedChars := s3.totalTypedChars + 1
          correctKeystrokes := s3.correctKeystrokes + 1
          wrongChars := s3.wrongChars.erase i0 }
      else s3

/-- The regular-typing tail of `handleKeyDown` (printable character or
Enter), starting after the `totalKeystrokes` increment: auto-advance the
indentation, look up the expected character, compare after whitespace
normalization, advance, and either record a correct keystroke (possibly
finishing the run) or log a mismatch. -/
def handleType (content : List Char) (prefs : Prefs) (ts : Nat)
    (s2 : EngineState) (got : Char) : EngineState :=
  let i0 := s2.cursorIndex
  let auto := autoAdvanceIndentationIfAllowed content prefs i0
  let s3 :=
    if 0 < auto.advanced then
      { s2 with
        cursorIndex := auto.nextIndex
        totalTypedChars := s2.totalTypedChars + auto.advanced
        wrongChars := eraseRange s2.wrongChars i0 auto.nextIndex }
    else s2
  match content[auto.nextIndex]? with
  | none => s3
  | some expected =>
    let s4 :=
      { s3 with
        cursorIndex := auto.nextIndex + 1
        totalTypedChars := s3.totalTypedChars + 1 }
    if normalizeWhitespace got = normalizeWhitespace expected then
      let s5 :=
        { s4 with
          correctKeystrokes := s4.correctKeystrokes + 1
          wrongChars := s4.wrongChars.erase auto.nextIndex }
      let nextIdx := auto.nextIndex + 1
      if content.length ≤ nextIdx ∨
          (nextIdx = content.length - 1 ∧ content[nextIdx]? = some '\n') then
        { s5 with phase := .finished, finishSignals := s5.finishSignals + 1 }
      else s5
    else
      { s4 with
        wrongChars := insert auto.nextIndex s4.wrongChars
        lastErrorAt := some ts
        errorLog := pushCapped s4.errorLog
          { expected := expected, got := got, index := auto.nextIndex }
        allErrors := s4.allErrors ++
          [{ expected := expected, got := got, index := auto.nextIndex }] }

/-- The non-Tab actionable branch of `handleKeyDown` (Backspace, Enter or
a printable character): phase gating, implicit start, keystroke count,
then backspace handling or regular typing. -/
def handleActionable (content : List Char) (prefs : Prefs) (ts : Nat)
    (s : EngineState) (k : Key) : EngineState :=
  if s.phase = .finished ∧ k ≠ .backspace then s
  else if s.phase = .countdown then s
  else
    let s1 := startIfIdle ts s
    let s2 := { s1 with totalKeystrokes := s1.totalKeystrokes + 1 }
    if k = .backspace then
      let s3 := if s.phase = .finished then { s2 with phase := .running } else s2
      if s.cursorIndex = 0 then s3
      else
        { s3 with
          cursorIndex := s.cursorIndex - 1
          wrongChars := s3.wrongChars.erase (s.cursorIndex - 1) }
    else
      match keyChar k with
      | some got => handleType content prefs ts s2 got
      | none => s2

/-- `handleKeyDown`: ignore pure modifiers, dispatch Tab to its dedicated
branch, ignore non-actionable named keys, and handle the remaining
actionable keys. -/
def handleKey (content : List Char) (prefs : Prefs) (ts : Nat)
    (s : EngineState) : Key → EngineState
  | .meta => s
  | .alt => s
  | .control => s
  | .tab => handleTab content prefs ts s
  | .other => s
  | .backspace => handleActionable content prefs ts s .backspace
  | .enter => handleActionable content prefs ts s .enter
  | .char c => handleActionable content prefs ts s (.char c)

/-- Run a sequence of keystroke events, each carrying its timestamp. -/
def run (content : List Char) (prefs : Prefs) (s : EngineState) :
    List (Key × Nat) → EngineState
  | [] => s
  | e :: rest => run content prefs (handleKey content prefs e.2 s e.1) rest

/-- States reachable from the zero state by handling keystrokes on a fixed
snippet content under fixed preferences. -/
def Reachable (content : List Char) (prefs : Prefs) (s : EngineState) : Prop :=
  ∃ evs : List (Key × Nat), s = run content prefs initialState evs

/-- Actionable keys: a single printable character, `Backspace`, `Enter` or
`Tab` (`e.key === "Backspace" || e.key === "Enter" || e.key.length === 1`,
with `Tab` handled by its own branch). -/
def isActionable : Key → Bool
  | .char _ => true
  | .enter => true
  | .tab => true
  | .backspace => true
  | _ => false

/-- State invariant: the cursor stays inside the content, every wrong
index lies strictly below the cursor, and the error log is the suffix of
at most 200 entries of the full mismatch history. -/
def Inv (content : List Char) (s : EngineState) : Prop :=
  s.cursorIndex ≤ content.length ∧
  (∀ i ∈ s.wrongChars, i < s.cursorIndex) ∧
  s.errorLog = s.allErrors.drop (s.allErrors.length - 200)

/-- Metrics record returned by `computeMetrics`. -/
structure Metrics where
  rawWpm : ℚ
  adjustedWpm : ℚ
  accuracy : ℚ
deriving DecidableEq

/-- Input record of `computeMetrics`; the two keystroke counters are
optional fields in the source. -/
structure ComputeMetricsInput where
  correctProgress : ℚ
  elapsedMs : ℚ
  totalTyped : ℚ
  totalKeystrokes : Option ℚ
  correctKeystrokes : Option ℚ
deriving DecidableEq

/-- `computeMetrics` from `lib/scoring.ts` (the variant taking the
optional keystroke counters).  JS `!totalKeystrokes || totalKeystrokes <= 0`
is `none`, or `some k` with `k ≤ 0` (the falsy value `0` satisfies `k ≤ 0`). -/
def computeMetrics (inp : ComputeMetricsInput) : Metrics :=
  if inp.elapsedMs ≤ 0 then
    { rawWpm := 0, adjustedWpm := 0, accuracy := 1 }
  else
    let minutes := inp.elapsedMs / 60000
    let rawCount := inp.totalKeystrokes.getD inp.totalTyped
    let rawWpm := rawCount / 5 / minutes
    let adjustedWpm := max 0 (inp.correctProgress / 5 / minutes)
    let accuracy :=
      match inp.totalKeystrokes with
      | none => 1
      | some k =>
        if k ≤ 0 then 1
        else min 1 (inp.correctKeystrokes.getD inp.correctProgress / k)
    { rawWpm := rawWpm, adjustedWpm := adjustedWpm, accuracy := accuracy }

/-! Basic lemmas about the helper functions. -/

theorem mem_eraseRange {w : Finset Nat} {lo hi i : Nat} :
    i ∈ eraseRange w lo hi ↔ i ∈ w ∧ (i < lo ∨ hi ≤ i) := by
  simp [eraseRange]

theorem eraseRange_self (w : Finset Nat) (a : Nat) : eraseRange w a a = w :=
  Finset.filter_true_of_mem (fun x _ => by omega)

@[simp] theorem startIfIdle_cursorIndex (ts : Nat) (s : EngineState) :
    (startIfIdle ts s).cursorIndex = s.cursorIndex := by
  unfold startIfIdle; split <;> rfl

@[simp] theorem startIfIdle_wrongChars (ts : Nat) (s : EngineState) :
    (startIfIdle ts s).wrongChars = s.wrongChars := by
  unfold startIfIdle; split <;> rfl

@[simp] theorem startIfIdle_errorLog (ts : Nat) (s : EngineState) :
    (startIfIdle ts s).errorLog = s.errorLog := by
  unfold startIfIdle; split <;> rfl

@[simp] theorem startIfIdle_allErrors (ts : Nat) (s : EngineState) :
    (startIfIdle ts s).allErrors = s.allErrors := by
  unfold startIfIdle; split <;> rfl

@[simp] theorem startIfIdle_totalTypedChars (ts : Nat) (s : EngineState) :
    (startIfIdle ts s).totalTypedChars = s.totalTypedChars := by
  unfold startIfIdle; split <;> rfl

@[simp] theorem startIfIdle_totalKeystrokes (ts : Nat) (s : EngineState) :
    (startIfIdle ts s).totalKeystrokes = s.totalKeystrokes := by
  unfold startIfIdle; split <;> rfl

@[simp] theorem startIfIdle_correctKeystrokes (ts : Nat) (s : EngineState) :
    (startIfIdle ts s).correctKeystrokes = s.correctKeystrokes := by
  unfold startIfIdle; split <;> rfl

@[simp] theorem startIfIdle_finishSignals (ts : Nat) (s : EngineState) :
    (startIfIdle ts s).finishSignals = s.finishSignals := by
  unfold startIfIdle; split <;> rfl

@[simp] theorem startIfIdle_lastErrorAt (ts : Nat) (s : EngineState) :
    (startIfIdle ts s).lastErrorAt = s.lastErrorAt := by
  unfold startIfIdle; split <;> rfl

theorem startIfIdle_phase (ts : Nat) (s : EngineState) :
    (startIfIdle ts s).phase = if s.phase = .idle then .running else s.phase := by
  unfold startIfIdle; split <;> simp_all

theorem startIfIdle_phase_of_not_finished (ts : Nat) (s : EngineState)
    (h : s.phase ≠ .finished) : (startIfIdle ts s).phase ≠ .finished := by
  rw [startIfIdle_phase]; split <;> simp_all

theorem startIfIdle_phase_of_running (ts : Nat) (s : EngineState)
    (h : s.phase = .running) : startIfIdle ts s = s := by
  unfold startIfIdle; rw [if_neg (by simp [h])]

theorem indentRunLen_le (l : List Char) : indentRunLen l ≤ l.length := by
  induction l with
  | nil => simp [indentRunLen]
  | cons c rest ih =>
    rw [indentRunLen]
    split <;> (simp; try omega)

theorem spaceRunLen_le (l : List Char) : spaceRunLen l ≤ l.length := by
  induction l with
  | nil => simp [spaceRunLen]
  | cons c rest ih =>
    rw [spaceRunLen]
    split <;> (simp; try omega)

theorem indentRunLen_drop_le (l : List Char) (i : Nat) :
    indentRunLen (l.drop i) ≤ l.length - i := by
  have h := indentRunLen_le (l.drop i)
  simpa using h

theorem spaceRunLen_drop_le (l : List Char) (i : Nat) :
    spaceRunLen (l.drop i) ≤ l.length - i := by
  have h := spaceRunLen_le (l.drop i)
  simpa using h

theorem indentRunLen_drop_pos (l : List Char) (i : Nat)
    (h : 0 < indentRunLen (l.drop i)) : i < l.length := by
  by_contra hi
  have hnil : l.drop i = [] := List.drop_eq_nil_iff.mpr (by omega)
  rw [hnil] at h
  simp [indentRunLen] at h

theorem spaceRunLen_drop_pos (l : List Char) (i : Nat)
    (h : 0 < spaceRunLen (l.drop i)) : i < l.length := by
  by_contra hi
  have hnil : l.drop i = [] := List.drop_eq_nil_iff.mpr (by omega)
  rw [hnil] at h
  simp [spaceRunLen] at h

theorem getElem?_some_lt {l : List Char} {n : Nat} {a : Char}
    (h : l[n]? = some a) : n < l.length := by
  rw [List.getElem?_eq_some] at h
  exact h.1

theorem indentRunLen_get (l : List Char) (k : Nat) (h : k < indentRunLen l) :
    l[k]? = some ' ' ∨ l[k]? = some '\t' := by
  induction l generalizing k with
  | nil => simp [indentRunLen] at h
  | cons c rest ih =>
    by_cases hc : c = ' ' ∨ c = '\t'
    · rw [indentRunLen, if_pos hc] at h
      cases k with
      | zero => rcases hc with hc | hc <;> simp [hc]
      | succ k =>
        have := ih k (by omega)
        simpa using this
    · rw [indentRunLen, if_neg hc] at h
      omega

theorem autoAdvance_cases (content : List Char) (prefs : Prefs) (i : Nat) :
    autoAdvanceIndentationIfAllowed content prefs i = ⟨0, i⟩ ∨
      (0 < (autoAdvanceIndentationIfAllowed content prefs i).advanced ∧
       (autoAdvanceIndentationIfAllowed content prefs i).nextIndex =
         i + (autoAdvanceIndentationIfAllowed content prefs i).advanced ∧
       (autoAdvanceIndentationIfAllowed content prefs i).advanced =
         indentRunLen (content.drop i) ∧
       i < content.length ∧
       (autoAdvanceIndentationIfAllowed content prefs i).nextIndex ≤
         content.length) := by
  unfold autoAdvanceIndentationIfAllowed
  dsimp only
  split_ifs
  all_goals try (left; rfl)
  all_goals right
  all_goals
    have hpos : 0 < indentRunLen (content.drop i) := by omega
  all_goals
    have hi : i < content.length := indentRunLen_drop_pos content i hpos
  all_goals
    have hle := indentRunLen_drop_le content i
  all_goals refine ⟨hpos, rfl, rfl, hi, ?_⟩
  all_goals show i + indentRunLen (content.drop i) ≤ content.length
  all_goals omega

theorem autoAdvance_stable (content : List Char) (prefs : Prefs) {n : Nat}
    (hn : 0 < n)
    (h : content[n - 1]? = some ' ' ∨ content[n - 1]? = some '\t') :
    autoAdvanceIndentationIfAllowed content prefs n = ⟨0, n⟩ := by
  have hlt : n - 1 < content.length := by
    rcases h with h | h <;> exact getElem?_some_lt h
  unfold autoAdvanceIndentationIfAllowed
  rw [if_neg (by omega)]
  dsimp only
  rw [if_pos]
  refine ⟨by omega, ?_, ?_⟩ <;> rw [if_neg (by omega : ¬ n = 0)] <;>
    rcases h with h | h <;> simp [h]

theorem pushCapped_drop (all : List ErrorEntry) (e : ErrorEntry) :
    pushCapped (all.drop (all.length - 200)) e =
      (all ++ [e]).drop ((all ++ [e]).length - 200) := by
  unfold pushCapped
  dsimp only
  have hlen : (all.drop (all.length - 200)).length =
      all.length - (all.length - 200) := by simp
  have hlen3 : (all ++ [e]).length = all.length + 1 := by simp
  by_cases hn : all.length ≤ 199
  · have h0 : all.length - 200 = 0 := by omega
    have h1 : (all ++ [e]).length - 200 = 0 := by omega
    rw [h0, List.drop_zero, h1, List.drop_zero, if_neg (by omega)]
  · have h2 : 1 ≤ (all.drop (all.length - 200)).length := by omega
    rw [if_pos (by
      simp only [List.length_append, List.length_cons, List.length_nil]
      omega)]
    rw [List.drop_append_of_le_length h2, List.drop_drop,
      List.drop_append_of_le_length (by omega)]
    have hidx : all.length - 200 + 1 = (all ++ [e]).length - 200 := by omega
    rw [hidx]

theorem handleType_none (content : List Char) (prefs : Prefs) (ts : Nat)
    (s2 : EngineState) (got : Char)
    (he : content[(autoAdvanceIndentationIfAllowed content prefs
      s2.cursorIndex).nextIndex]? = none) :
    handleType content prefs ts s2 got =
      if 0 < (autoAdvanceIndentationIfAllowed content prefs
          s2.cursorIndex).advanced then
        { s2 with
          cursorIndex := (autoAdvanceIndentationIfAllowed content prefs
            s2.cursorIndex).nextIndex
          totalTypedChars := s2.totalTypedChars +
            (autoAdvanceIndentationIfAllowed content prefs
              s2.cursorIndex).advanced
          wrongChars := eraseRange s2.wrongChars s2.cursorIndex
            (autoAdvanceIndentationIfAllowed content prefs
              s2.cursorIndex).nextIndex }
      else s2 := by
  unfold handleType
  dsimp only
  rw [he]

theorem handleType_match_eq (content : List Char) (prefs : Prefs) (ts : Nat)
    (s2 : EngineState) (got e : Char)
    (he : content[(autoAdvanceIndentationIfAllowed content prefs
      s2.cursorIndex).nextIndex]? = some e)
    (hok : normalizeWhitespace got = normalizeWhitespace e) :
    handleType content prefs ts s2 got =
      (let n := (autoAdvanceIndentationIfAllowed content prefs
        s2.cursorIndex).nextIndex
      let fin := content.length ≤ n + 1 ∨
        (n + 1 = content.length - 1 ∧ content[n + 1]? = some '\n')
      { s2 with
        cursorIndex := n + 1
        totalTypedChars := s2.totalTypedChars +
          (autoAdvanceIndentationIfAllowed content prefs
            s2.cursorIndex).advanced + 1
        correctKeystrokes := s2.correctKeystrokes + 1
        wrongChars := (eraseRange s2.wrongChars s2.cursorIndex n).erase n
        phase := if fin then .finished else s2.phase
        finishSignals :=
          if fin then s2.finishSignals + 1 else s2.finishSignals }) := by
  unfold handleType
  dsimp only
  rw [he]
  dsimp only
  rw [if_pos hok]
  rcases autoAdvance_cases content prefs s2.cursorIndex with hA | ⟨hpos, _⟩
  · rw [hA]
    dsimp only
    try rw [if_neg (lt_irrefl 0)]
    rw [eraseRange_self]
    split_ifs <;> rfl
  · rw [if_pos hpos]
    split_ifs <;> rfl

theorem handleType_mismatch_eq (content : List Char) (prefs : Prefs) (ts : Nat)
    (s2 : EngineState) (got e : Char)
    (he : content[(autoAdvanceIndentationIfAllowed content prefs
      s2.cursorIndex).nextIndex]? = some e)
    (hne : normalizeWhitespace got ≠ normalizeWhitespace e) :
    handleType content prefs ts s2 got =
      (let n := (autoAdvanceIndentationIfAllowed content prefs
        s2.cursorIndex).nextIndex
      { s2 with
        cursorIndex := n + 1
        totalTypedChars := s2.totalTypedChars +
          (autoAdvanceIndentationIfAllowed content prefs
            s2.cursorIndex).advanced + 1
        wrongChars := insert n (eraseRange s2.wrongChars s2.cursorIndex n)
        lastErrorAt := some ts
        errorLog := pushCapped s2.errorLog
          { expected := e, got := got, index := n }
        allErrors := s2.allErrors ++
          [{ expected := e, got := got, index := n }] }) := by
  unfold handleType
  dsimp only
  rw [he]
  dsimp only
  rw [if_neg hne]
  rcases autoAdvance_cases content prefs s2.cursorIndex with hA | ⟨hpos, _⟩
  · rw [hA]
    dsimp only
    try rw [if_neg (lt_irrefl 0)]
    rw [eraseRange_self]
  · rw [if_pos hpos]

theorem handleActionable_typing (content : List Char) (prefs : Prefs)
    (ts : Nat) (s : EngineState) (k : Key) (c : Char)
    (hph : s.phase = .idle ∨ s.phase = .running) (hk : keyChar k = some c) :
    handleActionable content prefs ts s k =
      handleType content prefs ts
        { startIfIdle ts s with
          totalKeystrokes := (startIfIdle ts s).totalKeystrokes + 1 } c := by
  have hkbs : k ≠ .backspace := by
    rintro rfl
    simp [keyChar] at hk
  unfold handleActionable
  rw [if_neg (by rcases hph with h | h <;> simp [h])]
  rw [if_neg (by rcases hph with h | h <;> simp [h])]
  dsimp only
  rw [if_neg hkbs, hk]

theorem handleActionable_backspace_notfin (content : List Char)
    (prefs : Prefs) (ts : Nat) (s : EngineState)
    (hph : s.phase = .idle ∨ s.phase = .running) (hc : 0 < s.cursorIndex) :
    handleActionable content prefs ts s .backspace =
      { startIfIdle ts s with
        totalKeystrokes := (startIfIdle ts s).totalKeystrokes + 1
        cursorIndex := s.cursorIndex - 1
        wrongChars := (startIfIdle ts s).wrongChars.erase
          (s.cursorIndex - 1) } := by
  have hfin : (s.phase = Phase.finished) = False := by
    rcases hph with h | h <;> simp [h]
  have hzero : (s.cursorIndex = 0) = False := eq_false (by omega)
  unfold handleActionable
  rw [if_neg (by rcases hph with h | h <;> simp [h])]
  rw [if_neg (by rcases hph with h | h <;> simp [h])]
  dsimp only
  rw [if_pos rfl]
  simp only [hfin, hzero, if_false]

theorem handleActionable_backspace_zero (content : List Char)
    (prefs : Prefs) (ts : Nat) (s : EngineState)
    (hph : s.phase = .idle ∨ s.phase = .running) (hc : s.cursorIndex = 0) :
    handleActionable content prefs ts s .backspace =
      { startIfIdle ts s with
        totalKeystrokes := (startIfIdle ts s).totalKeystrokes + 1 } := by
  have hfin : (s.phase = Phase.finished) = False := by
    rcases hph with h | h <;> simp [h]
  have hzero : (s.cursorIndex = 0) = True := eq_true hc
  unfold handleActionable
  rw [if_neg (by rcases hph with h | h <;> simp [h])]
  rw [if_neg (by rcases hph with h | h <;> simp [h])]
  dsimp only
  rw [if_pos rfl]
  simp only [hfin, hzero, if_false, if_true]

theorem handleActionable_backspace_finished (content : List Char)
    (prefs : Prefs) (ts : Nat) (s : EngineState)
    (hph : s.phase = .finished) :
    handleActionable content prefs ts s .backspace =
      if s.cursorIndex = 0 then
        { s with totalKeystrokes := s.totalKeystrokes + 1, phase := .running }
      else
        { s with
          totalKeystrokes := s.totalKeystrokes + 1
          phase := .running
          cursorIndex := s.cursorIndex - 1
          wrongChars := s.wrongChars.erase (s.cursorIndex - 1) } := by
  have hs1 : startIfIdle ts s = s := by
    unfold startIfIdle
    rw [if_neg (by simp [hph])]
  unfold handleActionable
  rw [if_neg (by simp [hph])]
  rw [if_neg (by simp [hph])]
  dsimp only
  rw [if_pos rfl, hs1, if_pos hph]

theorem handleActionable_rejected (content : List Char) (prefs : Prefs)
    (ts : Nat) (s : EngineState) (k : Key)
    (hph : s.phase = .finished) (hk : k ≠ .backspace) :
    handleActionable content prefs ts s k = s := by
  unfold handleActionable
  rw [if_pos ⟨hph, hk⟩]

theorem handleTab_finished (content : List Char) (prefs : Prefs) (ts : Nat)
    (s : EngineState) (h : s.phase = .finished) :
    handleTab content prefs ts s = s := by
  unfold handleTab
  rw [if_pos h]

theorem handleTab_totalKeystrokes (content : List Char) (prefs : Prefs)
    (ts : Nat) (s : EngineState)
    (hph : s.phase = .idle ∨ s.phase = .running) :
    (handleTab content prefs ts s).totalKeystrokes =
      s.totalKeystrokes + 1 := by
  unfold handleTab
  rw [if_neg (by rcases hph with h | h <;> simp [h])]
  rw [if_neg (by rcases hph with h | h <;> simp [h])]
  dsimp only
  split_ifs <;> simp

theorem handleTab_phase (content : List Char) (prefs : Prefs) (ts : Nat)
    (s : EngineState) (h : s.phase ≠ .finished) :
    (handleTab content prefs ts s).phase ≠ .finished := by
  unfold handleTab
  rw [if_neg h]
  split
  · exact h
  · dsimp only
    have h1 := startIfIdle_phase_of_not_finished ts s h
    split_ifs <;> simpa using h1

theorem handleType_phase (content : List Char) (prefs : Prefs) (ts : Nat)
    (s2 : EngineState) (got : Char) :
    (handleType content prefs ts s2 got).phase = s2.phase ∨
      ((handleType content prefs ts s2 got).phase = .finished ∧
       ∃ e, content[(autoAdvanceIndentationIfAllowed content prefs
         s2.cursorIndex).nextIndex]? = some e ∧
         normalizeWhitespace got = normalizeWhitespace e) := by
  cases he : content[(autoAdvanceIndentationIfAllowed content prefs
    s2.cursorIndex).nextIndex]? with
  | none =>
    rw [handleType_none content prefs ts s2 got he]
    split_ifs <;> left <;> rfl
  | some e =>
    by_cases hok : normalizeWhitespace got = normalizeWhitespace e
    · rw [handleType_match_eq content prefs ts s2 got e he hok]
      dsimp only
      split_ifs with hfin
      · right
        exact ⟨rfl, e, rfl, hok⟩
      · left
        rfl
    · rw [handleType_mismatch_eq content prefs ts s2 got e he hok]
      left
      rfl

theorem autoAdvance_nextIndex_ge (content : List Char) (prefs : Prefs)
    (i : Nat) :
    i ≤ (autoAdvanceIndentationIfAllowed content prefs i).nextIndex := by
  rcases autoAdvance_cases content prefs i with hA | ⟨_, hnext, _⟩
  · rw [hA]
  · omega

theorem startIfIdle_inv (content : List Char) (ts : Nat) (s : EngineState)
    (h : Inv content s) :
    Inv content
      { startIfIdle ts s with
        totalKeystrokes := (startIfIdle ts s).totalKeystrokes + 1 } := by
  obtain ⟨hcur, hw, hlog⟩ := h
  refine ⟨?_, ?_, ?_⟩ <;> dsimp only <;>
    simp only [startIfIdle_cursorIndex, startIfIdle_wrongChars,
      startIfIdle_errorLog, startIfIdle_allErrors] <;> assumption

theorem handleType_inv (content : List Char) (prefs : Prefs) (ts : Nat)
    (s2 : EngineState) (got : Char) (h : Inv content s2) :
    Inv content (handleType content prefs ts s2 got) := by
  obtain ⟨hcur, hw, hlog⟩ := h
  have hge := autoAdvance_nextIndex_ge content prefs s2.cursorIndex
  cases he : content[(autoAdvanceIndentationIfAllowed content prefs
    s2.cursorIndex).nextIndex]? with
  | none =>
    rw [handleType_none content prefs ts s2 got he]
    split_ifs with hadv
    · rcases autoAdvance_cases content prefs s2.cursorIndex with
        hA | ⟨hpos, hnext, hrun, hi2, hle⟩
      · rw [hA] at hadv
        simp at hadv
      · refine ⟨hle, fun i him => ?_, hlog⟩
        have him2 : i ∈ eraseRange s2.wrongChars s2.cursorIndex
            (autoAdvanceIndentationIfAllowed content prefs
              s2.cursorIndex).nextIndex := him
        rw [mem_eraseRange] at him2
        have hwi := hw i him2.1
        show i < (autoAdvanceIndentationIfAllowed content prefs
          s2.cursorIndex).nextIndex
        omega
    · exact ⟨hcur, hw, hlog⟩
  | some e =>
    have hlt : (autoAdvanceIndentationIfAllowed content prefs
        s2.cursorIndex).nextIndex < content.length := getElem?_some_lt he
    by_cases hok : normalizeWhitespace got = normalizeWhitespace e
    · rw [handleType_match_eq content prefs ts s2 got e he hok]
      dsimp only
      refine ⟨?_, fun i him => ?_, hlog⟩
      · show (autoAdvanceIndentationIfAllowed content prefs
          s2.cursorIndex).nextIndex + 1 ≤ content.length
        omega
      · have him2 : i ∈ (eraseRange s2.wrongChars s2.cursorIndex
            (autoAdvanceIndentationIfAllowed content prefs
              s2.cursorIndex).nextIndex).erase
            (autoAdvanceIndentationIfAllowed content prefs
              s2.cursorIndex).nextIndex := him
        rw [Finset.mem_erase, mem_eraseRange] at him2
        have hwi := hw i him2.2.1
        show i < (autoAdvanceIndentationIfAllowed content prefs
          s2.cursorIndex).nextIndex + 1
        omega
    · rw [handleType_mismatch_eq content prefs ts s2 got e he hok]
      dsimp only
      refine ⟨?_, fun i him => ?_, ?_⟩
      · show (autoAdvanceIndentationIfAllowed content prefs
          s2.cursorIndex).nextIndex + 1 ≤ content.length
        omega
      · have him2 : i ∈ insert
            (autoAdvanceIndentationIfAllowed content prefs
              s2.cursorIndex).nextIndex
            (eraseRange s2.wrongChars s2.cursorIndex
              (autoAdvanceIndentationIfAllowed content prefs
                s2.cursorIndex).nextIndex) := him
        rw [Finset.mem_insert, mem_eraseRange] at him2
        show i < (autoAdvanceIndentationIfAllowed content prefs
          s2.cursorIndex).nextIndex + 1
        rcases him2 with him2 | him2
        · omega
        · have hwi := hw i him2.1
          omega
      · show pushCapped s2.errorLog _ = _
        rw [hlog]
        exact pushCapped_drop s2.allErrors _

theorem handleTab_inv (content : List Char) (prefs : Prefs) (ts : Nat)
    (s : EngineState) (h : Inv content s) :
    Inv content (handleTab content prefs ts s) := by
  obtain ⟨hcur, hw, hlog⟩ := h
  have hge := autoAdvance_nextIndex_ge content prefs s.cursorIndex
  by_cases hfin : s.phase = .finished
  · rw [handleTab_finished content prefs ts s hfin]
    exact ⟨hcur, hw, hlog⟩
  by_cases hcd : s.phase = .countdown
  · unfold handleTab
    rw [if_neg hfin, if_pos hcd]
    exact ⟨hcur, hw, hlog⟩
  unfold handleTab
  rw [if_neg hfin, if_neg hcd]
  dsimp only
  rcases autoAdvance_cases content prefs s.cursorIndex with
    hA | ⟨hpos, hnext, hrun, hi2, hle⟩
  · rw [hA]
    dsimp only
    simp only [lt_self_iff_false, if_false]
    split_ifs with hend hsp htab
    · refine ⟨?_, fun i him => ?_, ?_⟩ <;> dsimp only <;>
        simp only [startIfIdle_cursorIndex, startIfIdle_wrongChars,
          startIfIdle_errorLog, startIfIdle_allErrors]
      · exact hcur
      · simp only [startIfIdle_wrongChars] at him
        exact hw i him
      · exact hlog
    · have hsrpos : 0 < spaceRunLen (content.drop s.cursorIndex) := by
        unfold INDENT_WIDTH at hsp
        omega
      have hlt := spaceRunLen_drop_pos content s.cursorIndex hsrpos
      have hle2 := spaceRunLen_drop_le content s.cursorIndex
      refine ⟨?_, fun i him => ?_, ?_⟩ <;> dsimp only <;>
        simp only [startIfIdle_cursorIndex, startIfIdle_wrongChars,
          startIfIdle_errorLog, startIfIdle_allErrors]
      · show s.cursorIndex + min INDENT_WIDTH
          (spaceRunLen (content.drop s.cursorIndex)) ≤ content.length
        unfold INDENT_WIDTH
        omega
      · simp only [startIfIdle_wrongChars] at him
        have him2 : i ∈ eraseRange s.wrongChars s.cursorIndex
            (s.cursorIndex + min INDENT_WIDTH
              (spaceRunLen (content.drop s.cursorIndex))) := him
        rw [mem_eraseRange] at him2
        have hwi := hw i him2.1
        show i < s.cursorIndex + min INDENT_WIDTH
          (spaceRunLen (content.drop s.cursorIndex))
        omega
      · exact hlog
    · have hlt : s.cursorIndex < content.length := getElem?_some_lt htab
      refine ⟨?_, fun i him => ?_, ?_⟩ <;> dsimp only <;>
        simp only [startIfIdle_cursorIndex, startIfIdle_wrongChars,
          startIfIdle_errorLog, startIfIdle_allErrors]
      · show s.cursorIndex + 1 ≤ content.length
        omega
      · simp only [startIfIdle_wrongChars] at him
        have him2 : i ∈ s.wrongChars.erase s.cursorIndex := him
        rw [Finset.mem_erase] at him2
        have hwi := hw i him2.2
        show i < s.cursorIndex + 1
        omega
      · exact hlog
    · refine ⟨?_, fun i him => ?_, ?_⟩ <;> dsimp only <;>
        simp only [startIfIdle_cursorIndex, startIfIdle_wrongChars,
          startIfIdle_errorLog, startIfIdle_allErrors]
      · exact hcur
      · simp only [startIfIdle_wrongChars] at him
        exact hw i him
      · exact hlog
  · rw [if_pos hpos]
    have hwrong : ∀ i ∈ eraseRange ((startIfIdle ts s).wrongChars)
        s.cursorIndex (autoAdvanceIndentationIfAllowed content prefs
          s.cursorIndex).nextIndex,
        i < (autoAdvanceIndentationIfAllowed content prefs
          s.cursorIndex).nextIndex := by
      intro i him
      rw [mem_eraseRange, startIfIdle_wrongChars] at him
      have hwi := hw i him.1
      omega
    split_ifs with hend
    · refine ⟨?_, fun i him => ?_, ?_⟩ <;> dsimp only
      · exact hle
      · exact hwrong i him
      · simp only [startIfIdle_errorLog, startIfIdle_allErrors]
        exact hlog
    · refine ⟨?_, fun i him => ?_, ?_⟩ <;> dsimp only
      · exact hle
      · have him2 : i ∈ eraseRange (eraseRange ((startIfIdle ts s).wrongChars)
            s.cursorIndex (autoAdvanceIndentationIfAllowed content prefs
              s.cursorIndex).nextIndex)
            s.cursorIndex (autoAdvanceIndentationIfAllowed content prefs
              s.cursorIndex).nextIndex := him
        rw [mem_eraseRange] at him2
        exact hwrong i him2.1
      · simp only [startIfIdle_errorLog, startIfIdle_allErrors]
        exact hlog

theorem handleKey_inv (content : List Char) (prefs : Prefs) (ts : Nat)
    (s : EngineState) (k : Key) (h : Inv content s) :
    Inv content (handleKey content prefs ts s k) := by
  cases k with
  | meta => exact h
  | alt => exact h
  | control => exact h
  | other => exact h
  | tab => exact handleTab_inv content prefs ts s h
  | backspace =>
    obtain ⟨hcur, hw, hlog⟩ := h
    show Inv content (handleActionable content prefs ts s .backspace)
    by_cases hcd : s.phase = .countdown
    · unfold handleActionable
      rw [if_neg (by simp [hcd]), if_pos hcd]
      exact ⟨hcur, hw, hlog⟩
    by_cases hfin : s.phase = .finished
    · rw [handleActionable_backspace_finished content prefs ts s hfin]
      split_ifs with hz
      · exact ⟨hcur, hw, hlog⟩
      · refine ⟨?_, fun i him => ?_, hlog⟩
        · show s.cursorIndex - 1 ≤ content.length
          omega
        · have him2 : i ∈ s.wrongChars.erase (s.cursorIndex - 1) := him
          rw [Finset.mem_erase] at him2
          have hwi := hw i him2.2
          show i < s.cursorIndex - 1
          omega
    · have hph : s.phase = .idle ∨ s.phase = .running := by
        cases hval : s.phase <;> simp_all
      by_cases hz : s.cursorIndex = 0
      · rw [handleActionable_backspace_zero content prefs ts s hph hz]
        refine ⟨?_, fun i him => ?_, ?_⟩
        · show (startIfIdle ts s).cursorIndex ≤ content.length
          rw [startIfIdle_cursorIndex]
          exact hcur
        · have him2 : i ∈ (startIfIdle ts s).wrongChars := him
          rw [startIfIdle_wrongChars] at him2
          have hwi := hw i him2
          show i < (startIfIdle ts s).cursorIndex
          rw [startIfIdle_cursorIndex]
          exact hwi
        · show (startIfIdle ts s).errorLog =
            List.drop ((startIfIdle ts s).allErrors.length - 200)
              (startIfIdle ts s).allErrors
          rw [startIfIdle_errorLog, startIfIdle_allErrors]
          exact hlog
      · rw [handleActionable_backspace_notfin content prefs ts s hph
          (by omega)]
        refine ⟨?_, fun i him => ?_, ?_⟩
        · show s.cursorIndex - 1 ≤ content.length
          omega
        · have him2 : i ∈ (startIfIdle ts s).wrongChars.erase
            (s.cursorIndex - 1) := him
          rw [Finset.mem_erase, startIfIdle_wrongChars] at him2
          have hwi := hw i him2.2
          show i < s.cursorIndex - 1
          omega
        · show (startIfIdle ts s).errorLog =
            List.drop ((startIfIdle ts s).allErrors.length - 200)
              (startIfIdle ts s).allErrors
          rw [startIfIdle_errorLog, startIfIdle_allErrors]
          exact hlog
  | enter =>
    show Inv content (handleActionable content prefs ts s .enter)
    unfold handleActionable
    split_ifs
    all_goals try exact h
    all_goals try exact False.elim (by assumption)
    all_goals exact handleType_inv content prefs ts _ '\n' (startIfIdle_inv content ts s h)
  | char c =>
    show Inv content (handleActionable content prefs ts s (.char c))
    unfold handleActionable
    split_ifs
    all_goals try exact h
    all_goals try exact False.elim (by assumption)
    all_goals exact handleType_inv content prefs ts _ c (startIfIdle_inv content ts s h)

theorem run_inv (content : List Char) (prefs : Prefs)
    (evs : List (Key × Nat)) (s : EngineState) (h : Inv content s) :
    Inv content (run content prefs s evs) := by
  induction evs generalizing s with
  | nil => exact h
  | cons e rest ih =>
    exact ih _ (handleKey_inv content prefs e.2 s e.1 h)

theorem initialState_inv (content : List Char) : Inv content initialState := by
  refine ⟨Nat.zero_le _, ?_, rfl⟩
  intro i him
  simp [initialState] at him

theorem reachable_inv (content : List Char) (prefs : Prefs)
    (s : EngineState) (h : Reachable content prefs s) : Inv content s := by
  obtain ⟨evs, rfl⟩ := h
  exact run_inv content prefs evs initialState (initialState_inv content)

theorem handleType_totalKeystrokes (content : List Char) (prefs : Prefs)
    (ts : Nat) (s2 : EngineState) (got : Char) :
    (handleType content prefs ts s2 got).totalKeystrokes =
      s2.totalKeystrokes := by
  cases he : content[(autoAdvanceIndentationIfAllowed content prefs
    s2.cursorIndex).nextIndex]? with
  | none =>
    rw [handleType_none content prefs ts s2 got he]
    split_ifs <;> rfl
  | some e =>
    by_cases hok : normalizeWhitespace got = normalizeWhitespace e
    · rw [handleType_match_eq content prefs ts s2 got e he hok]
    · rw [handleType_mismatch_eq content prefs ts s2 got e he hok]

theorem handleActionable_backspace_phase (content : List Char)
    (prefs : Prefs) (ts : Nat) (s : EngineState) (h : s.phase ≠ .finished) :
    (handleActionable content prefs ts s .backspace).phase ≠ .finished := by
  by_cases hcd : s.phase = .countdown
  · unfold handleActionable
    rw [if_neg (by simp [h]), if_pos hcd]
    exact h
  · have hph : s.phase = .idle ∨ s.phase = .running := by
      cases hval : s.phase <;> simp_all
    by_cases hz : s.cursorIndex = 0
    · rw [handleActionable_backspace_zero content prefs ts s hph hz]
      show (startIfIdle ts s).phase ≠ .finished
      exact startIfIdle_phase_of_not_finished ts s h
    · rw [handleActionable_backspace_notfin content prefs ts s hph
        (by omega)]
      show (startIfIdle ts s).phase ≠ .finished
      exact startIfIdle_phase_of_not_finished ts s h

theorem autoAdvance_idem (content : List Char) (prefs : Prefs) (i : Nat) :
    autoAdvanceIndentationIfAllowed content prefs
      ((autoAdvanceIndentationIfAllowed content prefs i).nextIndex) =
      ⟨0, (autoAdvanceIndentationIfAllowed content prefs i).nextIndex⟩ := by
  rcases autoAdvance_cases content prefs i with hA | ⟨hpos, hnext, hrun, hi, hle⟩
  · simp only [hA]
  · apply autoAdvance_stable content prefs (by omega)
    have hk : (autoAdvanceIndentationIfAllowed content prefs i).advanced - 1 <
        indentRunLen (content.drop i) := by omega
    have hch := indentRunLen_get (content.drop i)
      ((autoAdvanceIndentationIfAllowed content prefs i).advanced - 1) hk
    rw [List.getElem?_drop] at hch
    have hidx : i + ((autoAdvanceIndentationIfAllowed content prefs
        i).advanced - 1) =
        (autoAdvanceIndentationIfAllowed content prefs i).nextIndex - 1 := by
      omega
    rwa [hidx] at hch

/-! Claim theorems. -/

/-- C1: for every session state reachable from the zero state by a
sequence of handleKey events on a fixed snippet content,
`cursorIndex ≤ content.length` (the lower bound `0 ≤ cursorIndex` is
inherent to `Nat`) and every index in `wrongChars` is strictly less than
`cursorIndex` (hence nonnegative and in `[0, cursorIndex)`). -/
theorem C1_state_invariant (content : List Char) (prefs : Prefs)
    (s : EngineState) (h : Reachable content prefs s) :
    s.cursorIndex ≤ content.length ∧
      ∀ i ∈ s.wrongChars, i < s.cursorIndex := by
  have h2 := reachable_inv content prefs s h
  exact ⟨h2.1, h2.2.1⟩

/-- Witness for C1 at a concrete two-keystroke run on content "ab". -/
theorem C1_state_invariant_witness :
    (run ['a', 'b'] ⟨false, false⟩ initialState
        [(.char 'a', 0), (.char 'z', 1)]).cursorIndex ≤
      (['a', 'b'] : List Char).length ∧
      ∀ i ∈ (run ['a', 'b'] ⟨false, false⟩ initialState
          [(.char 'a', 0), (.char 'z', 1)]).wrongChars,
        i < (run ['a', 'b'] ⟨false, false⟩ initialState
          [(.char 'a', 0), (.char 'z', 1)]).cursorIndex :=
  C1_state_invariant ['a', 'b'] ⟨false, false⟩
    (run ['a', 'b'] ⟨false, false⟩ initialState
      [(.char 'a', 0), (.char 'z', 1)])
    ⟨[(.char 'a', 0), (.char 'z', 1)], rfl⟩

/-- C3: computeMetrics is a pure function of its input record; when
`elapsedMs ≤ 0` it returns zero speeds and accuracy 1; otherwise the raw
WPM is `(totalKeystrokes / 5) / minutes` with `totalTyped` as fallback
when the keystroke counter is absent, the adjusted WPM is
`max 0 ((correctProgress / 5) / minutes)`, and the accuracy is 1 when the
keystroke counter is `≤ 0` (or absent), else
`min 1 (correctKeystrokes / totalKeystrokes)`. -/
theorem C3_computeMetrics_spec (inp : ComputeMetricsInput) :
    (inp.elapsedMs ≤ 0 →
      computeMetrics inp =
        { rawWpm := 0, adjustedWpm := 0, accuracy := 1 }) ∧
    (0 < inp.elapsedMs →
      (computeMetrics inp).rawWpm =
        inp.totalKeystrokes.getD inp.totalTyped / 5 /
          (inp.elapsedMs / 60000) ∧
      (computeMetrics inp).adjustedWpm =
        max 0 (inp.correctProgress / 5 / (inp.elapsedMs / 60000)) ∧
      (∀ q, inp.totalKeystrokes = some q → q ≤ 0 →
        (computeMetrics inp).accuracy = 1) ∧
      (inp.totalKeystrokes = none → (computeMetrics inp).accuracy = 1) ∧
      (∀ q ck, inp.totalKeystrokes = some q → 0 < q →
        inp.correctKeystrokes = some ck →
        (computeMetrics inp).accuracy = min 1 (ck / q))) := by
  constructor
  · intro hle
    unfold computeMetrics
    rw [if_pos hle]
  · intro hgt
    have hne : ¬ inp.elapsedMs ≤ 0 := not_le.mpr hgt
    unfold computeMetrics
    rw [if_neg hne]
    dsimp only
    refine ⟨rfl, rfl, ?_, ?_, ?_⟩
    · intro q hq hq0
      rw [hq]
      dsimp only
      rw [if_pos hq0]
    · intro hq
      rw [hq]
    · intro q ck hq hq0 hck
      rw [hq]
      dsimp only
      rw [if_neg (by exact not_le.mpr hq0), hck]
      rfl

/-- Witness for C3 at two concrete input records. -/
theorem C3_computeMetrics_spec_witness :
    computeMetrics ⟨10, 0, 7, some 20, some 15⟩ =
      { rawWpm := 0, adjustedWpm := 0, accuracy := 1 } ∧
    (computeMetrics ⟨10, 60000, 7, some 20, some 15⟩).rawWpm = 4 ∧
    (computeMetrics ⟨10, 60000, 7, some 20, some 15⟩).adjustedWpm = 2 ∧
    (computeMetrics ⟨10, 60000, 7, some 20, some 15⟩).accuracy = 3 / 4 := by
  obtain ⟨h1, _⟩ := C3_computeMetrics_spec ⟨10, 0, 7, some 20, some 15⟩
  obtain ⟨_, h2⟩ := C3_computeMetrics_spec ⟨10, 60000, 7, some 20, some 15⟩
  obtain ⟨hraw, hadj, _, _, hacc⟩ := h2 (by norm_num)
  refine ⟨h1 le_rfl, ?_, ?_, ?_⟩
  · rw [hraw]
    norm_num
  · rw [hadj]
    norm_num
  · rw [hacc 20 15 rfl (by norm_num) rfl]
    norm_num

/-- C7: in every reachable state the error log holds at most 200 entries,
and it is exactly the suffix of the most recent (at most 200) mismatch
entries, in order (the instrumentation field `allErrors` records every
mismatch of the session in order); in particular after more than 200
mismatches the log holds exactly 200 entries. -/
theorem C7_errorLog_bound (content : List Char) (prefs : Prefs)
    (s : EngineState) (h : Reachable content prefs s) :
    s.errorLog.length ≤ 200 ∧
      s.errorLog = s.allErrors.drop (s.allErrors.length - 200) ∧
      (200 < s.allErrors.length → s.errorLog.length = 200) := by
  have h2 := (reachable_inv content prefs s h).2.2
  refine ⟨?_, h2, ?_⟩
  · rw [h2]
    simp only [List.length_drop]
    omega
  · intro hgt
    rw [h2]
    simp only [List.length_drop]
    omega

/-- Witness for C7 at a concrete one-mismatch run on content "a". -/
theorem C7_errorLog_bound_witness :
    (run ['a'] ⟨false, false⟩ initialState
        [(.char 'z', 5)]).errorLog.length ≤ 200 ∧
      (run ['a'] ⟨false, false⟩ initialState
        [(.char 'z', 5)]).errorLog =
        (run ['a'] ⟨false, false⟩ initialState
          [(.char 'z', 5)]).allErrors.drop
          ((run ['a'] ⟨false, false⟩ initialState
            [(.char 'z', 5)]).allErrors.length - 200) ∧
      (200 < (run ['a'] ⟨false, false⟩ initialState
          [(.char 'z', 5)]).allErrors.length →
        (run ['a'] ⟨false, false⟩ initialState
          [(.char 'z', 5)]).errorLog.length = 200) :=
  C7_errorLog_bound ['a'] ⟨false, false⟩
    (run ['a'] ⟨false, false⟩ initialState [(.char 'z', 5)])
    ⟨[(.char 'z', 5)], rfl⟩

/-- C9: reset is total and idempotent: from any state it yields the zero
state (phase idle, cursor 0, empty wrongChars, no start time, empty error
log, all counters 0), and applying it twice equals applying it once. -/
theorem C9_reset_idempotent :
    (∀ s : EngineState, reset s = initialState) ∧
    initialState.phase = .idle ∧
    initialState.cursorIndex = 0 ∧
    initialState.wrongChars = ∅ ∧
    initialState.startTime = none ∧
    initialState.errorLog = [] ∧
    initialState.totalTypedChars = 0 ∧
    initialState.totalKeystrokes = 0 ∧
    initialState.correctKeystrokes = 0 ∧
    (∀ s : EngineState, reset (reset s) = reset s) :=
  ⟨fun _ => rfl, rfl, rfl, rfl, rfl, rfl, rfl, rfl, rfl, fun _ => rfl⟩

/-- C6: every actionable key (a printable character, Backspace, Enter or
Tab) accepted while the phase is idle or running increments
`totalKeystrokes` by exactly one, and each pure modifier key (Meta, Alt,
Control) leaves the entire state unchanged.  (During the countdown, and
while finished for non-Backspace keys, keystrokes are swallowed rather
than accepted.) -/
theorem C6_keystroke_counting :
    (∀ (content : List Char) (prefs : Prefs) (ts : Nat) (s : EngineState)
        (k : Key), (s.phase = .idle ∨ s.phase = .running) →
        isActionable k = true →
        (handleKey content prefs ts s k).totalKeystrokes =
          s.totalKeystrokes + 1) ∧
    (∀ (content : List Char) (prefs : Prefs) (ts : Nat) (s : EngineState)
        (k : Key), (k = .meta ∨ k = .alt ∨ k = .control) →
        handleKey content prefs ts s k = s) := by
  constructor
  · intro content prefs ts s k hph hk
    cases k with
    | meta => simp [isActionable] at hk
    | alt => simp [isActionable] at hk
    | control => simp [isActionable] at hk
    | other => simp [isActionable] at hk
    | tab => exact handleTab_totalKeystrokes content prefs ts s hph
    | backspace =>
      show (handleActionable content prefs ts s .backspace).totalKeystrokes
        = s.totalKeystrokes + 1
      by_cases hz : s.cursorIndex = 0
      · rw [handleActionable_backspace_zero content prefs ts s hph hz]
        show (startIfIdle ts s).totalKeystrokes + 1 = s.totalKeystrokes + 1
        rw [startIfIdle_totalKeystrokes]
      · rw [handleActionable_backspace_notfin content prefs ts s hph
          (by omega)]
        show (startIfIdle ts s).totalKeystrokes + 1 = s.totalKeystrokes + 1
        rw [startIfIdle_totalKeystrokes]
    | enter =>
      show (handleActionable content prefs ts s .enter).totalKeystrokes
        = s.totalKeystrokes + 1
      rw [handleActionable_typing content prefs ts s .enter '\n' hph rfl,
        handleType_totalKeystrokes]
      show (startIfIdle ts s).totalKeystrokes + 1 = s.totalKeystrokes + 1
      rw [startIfIdle_totalKeystrokes]
    | char c =>
      show (handleActionable content prefs ts s (.char c)).totalKeystrokes
        = s.totalKeystrokes + 1
      rw [handleActionable_typing content prefs ts s (.char c) c hph rfl,
        handleType_totalKeystrokes]
      show (startIfIdle ts s).totalKeystrokes + 1 = s.totalKeystrokes + 1
      rw [startIfIdle_totalKeystrokes]
  · rintro content prefs ts s k (rfl | rfl | rfl) <;> rfl

/-- Witness for C6 on content "a": a correct keystroke counts once, a
Meta key changes nothing. -/
theorem C6_keystroke_counting_witness :
    (handleKey ['a'] ⟨false, false⟩ 0 initialState
        (.char 'a')).totalKeystrokes = initialState.totalKeystrokes + 1 ∧
    handleKey ['a'] ⟨false, false⟩ 0 initialState .meta = initialState := by
  obtain ⟨h1, h2⟩ := C6_keystroke_counting
  exact ⟨h1 ['a'] ⟨false, false⟩ 0 initialState (.char 'a') (Or.inl rfl) rfl,
    h2 ['a'] ⟨false, false⟩ 0 initialState .meta (Or.inl rfl)⟩

/-- C8: while the phase is finished, every actionable key other than
Backspace leaves the session state unchanged; Backspace transitions the
phase back to running, counts the keystroke, and applies the normal
backspace effect (no-op on the cursor at 0, otherwise decrement and clear
the vacated wrong index). -/
theorem C8_finished_contract :
    (∀ (content : List Char) (prefs : Prefs) (ts : Nat) (s : EngineState)
        (k : Key), s.phase = .finished → isActionable k = true →
        k ≠ .backspace → handleKey content prefs ts s k = s) ∧
    (∀ (content : List Char) (prefs : Prefs) (ts : Nat) (s : EngineState),
        s.phase = .finished →
        (handleKey content prefs ts s .backspace).phase = .running ∧
        (handleKey content prefs ts s .backspace).totalKeystrokes =
          s.totalKeystrokes + 1 ∧
        (s.cursorIndex = 0 →
          (handleKey content prefs ts s .backspace).cursorIndex = 0 ∧
          (handleKey content prefs ts s .backspace).wrongChars =
            s.wrongChars) ∧
        (0 < s.cursorIndex →
          (handleKey content prefs ts s .backspace).cursorIndex =
            s.cursorIndex - 1 ∧
          (handleKey content prefs ts s .backspace).wrongChars =
            s.wrongChars.erase (s.cursorIndex - 1))) := by
  constructor
  · intro content prefs ts s k hph hk hbs
    cases k with
    | meta => simp [isActionable] at hk
    | alt => simp [isActionable] at hk
    | control => simp [isActionable] at hk
    | other => simp [isActionable] at hk
    | tab => exact handleTab_finished content prefs ts s hph
    | backspace => exact absurd rfl hbs
    | enter =>
      exact handleActionable_rejected content prefs ts s .enter hph
        (fun h => Key.noConfusion h)
    | char c =>
      exact handleActionable_rejected content prefs ts s (.char c) hph
        (fun h => Key.noConfusion h)
  · intro content prefs ts s hph
    have heq : handleKey content prefs ts s .backspace =
        handleActionable content prefs ts s .backspace := rfl
    rw [heq, handleActionable_backspace_finished content prefs ts s hph]
    split_ifs with hz
    · exact ⟨rfl, rfl, fun _ => ⟨hz, rfl⟩,
        fun hpos => absurd hz (by omega)⟩
    · exact ⟨rfl, rfl, fun hz2 => absurd hz2 hz, fun _ => ⟨rfl, rfl⟩⟩

/-- Witness for C8 on content "a" after finishing the run: a further
printable key is swallowed and Backspace reopens the run. -/
theorem C8_finished_contract_witness :
    handleKey ['a'] ⟨false, false⟩ 1
        (handleKey ['a'] ⟨false, false⟩ 0 initialState (.char 'a'))
        (.char 'z') =
      handleKey ['a'] ⟨false, false⟩ 0 initialState (.char 'a') ∧
    (handleKey ['a'] ⟨false, false⟩ 1
        (handleKey ['a'] ⟨false, false⟩ 0 initialState (.char 'a'))
        .backspace).phase = .running := by
  obtain ⟨h1, h2⟩ := C8_finished_contract
  have hfin : (handleKey ['a'] ⟨false, false⟩ 0 initialState
      (.char 'a')).phase = .finished := by decide
  exact ⟨h1 ['a'] ⟨false, false⟩ 1
      (handleKey ['a'] ⟨false, false⟩ 0 initialState (.char 'a'))
      (.char 'z') hfin rfl (fun h => Key.noConfusion h),
    (h2 ['a'] ⟨false, false⟩ 1
      (handleKey ['a'] ⟨false, false⟩ 0 initialState (.char 'a')) hfin).1⟩

/-- C2: while running, a matching keystroke whose advance takes the
cursor to the end of the content, or to the last position with the one
remaining character a trailing newline, transitions the phase to finished
and fires the completion signal exactly once; in particular on content
"a\n", typing 'a' from the fresh state finishes the run without the user
typing the trailing newline. -/
theorem C2_completion_detection :
    (∀ (content : List Char) (prefs : Prefs) (ts : Nat) (s : EngineState)
        (k : Key) (c e : Char),
      s.phase = .running →
      keyChar k = some c →
      content[(autoAdvanceIndentationIfAllowed content prefs
        s.cursorIndex).nextIndex]? = some e →
      normalizeWhitespace c = normalizeWhitespace e →
      (content.length ≤ (autoAdvanceIndentationIfAllowed content prefs
          s.cursorIndex).nextIndex + 1 ∨
        ((autoAdvanceIndentationIfAllowed content prefs
            s.cursorIndex).nextIndex + 1 = content.length - 1 ∧
          content[(autoAdvanceIndentationIfAllowed content prefs
            s.cursorIndex).nextIndex + 1]? = some '\n')) →
      (handleKey content prefs ts s k).phase = .finished ∧
        (handleKey content prefs ts s k).finishSignals =
          s.finishSignals + 1) ∧
    ((handleKey ['a', '\n'] ⟨false, false⟩ 0 initialState
        (.char 'a')).phase = .finished ∧
      (handleKey ['a', '\n'] ⟨false, false⟩ 0 initialState
        (.char 'a')).finishSignals = 1) := by
  constructor
  · intro content prefs ts s k c e hph hk he hok hfin
    have hs : startIfIdle ts s = s := startIfIdle_phase_of_running ts s hph
    cases k with
    | meta => simp [keyChar] at hk
    | alt => simp [keyChar] at hk
    | control => simp [keyChar] at hk
    | other => simp [keyChar] at hk
    | tab => simp [keyChar] at hk
    | backspace => simp [keyChar] at hk
    | char c2 =>
      obtain rfl : c2 = c := Option.some.inj hk
      have heq : handleKey content prefs ts s (.char c2) =
          handleType content prefs ts
            { s with totalKeystrokes := s.totalKeystrokes + 1 } c2 := by
        rw [show handleKey content prefs ts s (.char c2) =
            handleActionable content prefs ts s (.char c2) from rfl,
          handleActionable_typing content prefs ts s (.char c2) c2
            (Or.inr hph) rfl, hs]
      rw [heq, handleType_match_eq content prefs ts
        { s with totalKeystrokes := s.totalKeystrokes + 1 } c2 e he hok]
      dsimp only
      rw [if_pos hfin, if_pos hfin]
      exact ⟨rfl, rfl⟩
    | enter =>
      obtain rfl : Char.ofNat 10 = c := Option.some.inj hk
      have heq : handleKey content prefs ts s .enter =
          handleType content prefs ts
            { s with totalKeystrokes := s.totalKeystrokes + 1 } '\n' := by
        rw [show handleKey content prefs ts s .enter =
            handleActionable content prefs ts s .enter from rfl,
          handleActionable_typing content prefs ts s .enter '\n'
            (Or.inr hph) rfl, hs]
      rw [heq, handleType_match_eq content prefs ts
        { s with totalKeystrokes := s.totalKeystrokes + 1 } '\n' e he hok]
      dsimp only
      rw [if_pos hfin, if_pos hfin]
      exact ⟨rfl, rfl⟩
  · constructor <;> decide

/-- Witness for C2 at content "ab\n": after typing 'a', typing 'b' at
index 1 reaches the trailing-newline position and finishes the run. -/
theorem C2_completion_detection_witness :
    (handleKey ['a', 'b', '\n'] ⟨false, false⟩ 1
        (handleKey ['a', 'b', '\n'] ⟨false, false⟩ 0 initialState
          (.char 'a')) (.char 'b')).phase = .finished ∧
      (handleKey ['a', 'b', '\n'] ⟨false, false⟩ 1
        (handleKey ['a', 'b', '\n'] ⟨false, false⟩ 0 initialState
          (.char 'a')) (.char 'b')).finishSignals =
        (handleKey ['a', 'b', '\n'] ⟨false, false⟩ 0 initialState
          (.char 'a')).finishSignals + 1 := by
  obtain ⟨h1, _⟩ := C2_completion_detection
  exact h1 ['a', 'b', '\n'] ⟨false, false⟩ 1
    (handleKey ['a', 'b', '\n'] ⟨false, false⟩ 0 initialState (.char 'a'))
    (.char 'b') 'b' 'b' (by decide) rfl (by decide) rfl (by decide)

/-- C10: a mismatching keystroke handled while running leaves the phase
running (even when it advances the cursor to the end of the content), and
conversely any keystroke that moves a non-finished state to finished must
be a typing key whose character matches the expected character at the
post-auto-advance position. -/
theorem C10_mismatch_never_finishes :
    (∀ (content : List Char) (prefs : Prefs) (ts : Nat) (s : EngineState)
        (k : Key) (c e : Char),
      s.phase = .running →
      keyChar k = some c →
      content[(autoAdvanceIndentationIfAllowed content prefs
        s.cursorIndex).nextIndex]? = some e →
      normalizeWhitespace c ≠ normalizeWhitespace e →
      (handleKey content prefs ts s k).phase = .running) ∧
    (∀ (content : List Char) (prefs : Prefs) (ts : Nat) (s : EngineState)
        (k : Key),
      s.phase ≠ .finished →
      (handleKey content prefs ts s k).phase = .finished →
      ∃ c e, keyChar k = some c ∧
        content[(autoAdvanceIndentationIfAllowed content prefs
          s.cursorIndex).nextIndex]? = some e ∧
        normalizeWhitespace c = normalizeWhitespace e) := by
  constructor
  · intro content prefs ts s k c e hph hk he hne
    have hs : startIfIdle ts s = s := startIfIdle_phase_of_running ts s hph
    cases k with
    | meta => simp [keyChar] at hk
    | alt => simp [keyChar] at hk
    | control => simp [keyChar] at hk
    | other => simp [keyChar] at hk
    | tab => simp [keyChar] at hk
    | backspace => simp [keyChar] at hk
    | char c2 =>
      obtain rfl : c2 = c := Option.some.inj hk
      have heq : handleKey content prefs ts s (.char c2) =
          handleType content prefs ts
            { s with totalKeystrokes := s.totalKeystrokes + 1 } c2 := by
        rw [show handleKey content prefs ts s (.char c2) =
            handleActionable content prefs ts s (.char c2) from rfl,
          handleActionable_typing content prefs ts s (.char c2) c2
            (Or.inr hph) rfl, hs]
      rw [heq, handleType_mismatch_eq content prefs ts
        { s with totalKeystrokes := s.totalKeystrokes + 1 } c2 e he hne]
      exact hph
    | enter =>
      obtain rfl : Char.ofNat 10 = c := Option.some.inj hk
      have heq : handleKey content prefs ts s .enter =
          handleType content prefs ts
            { s with totalKeystrokes := s.totalKeystrokes + 1 } '\n' := by
        rw [show handleKey content prefs ts s .enter =
            handleActionable content prefs ts s .enter from rfl,
          handleActionable_typing content prefs ts s .enter '\n'
            (Or.inr hph) rfl, hs]
      rw [heq, handleType_mismatch_eq content prefs ts
        { s with totalKeystrokes := s.totalKeystrokes + 1 } '\n' e he hne]
      exact hph
  · intro content prefs ts s k hns hfin
    cases k with
    | meta => exact absurd hfin hns
    | alt => exact absurd hfin hns
    | control => exact absurd hfin hns
    | other => exact absurd hfin hns
    | tab => exact absurd hfin (handleTab_phase content prefs ts s hns)
    | backspace =>
      exact absurd hfin
        (handleActionable_backspace_phase content prefs ts s hns)
    | enter =>
      by_cases hcd : s.phase = .countdown
      · have hid : handleKey content prefs ts s .enter = s := by
          show handleActionable content prefs ts s .enter = s
          unfold handleActionable
          rw [if_neg (by simp [hns]), if_pos hcd]
        rw [hid] at hfin
        exact absurd hfin hns
      · have hph : s.phase = .idle ∨ s.phase = .running := by
          cases hval : s.phase <;> simp_all
        have heq : handleKey content prefs ts s .enter =
            handleType content prefs ts
              { startIfIdle ts s with
                totalKeystrokes := (startIfIdle ts s).totalKeystrokes + 1 }
              '\n' :=
          handleActionable_typing content prefs ts s .enter '\n' hph rfl
        rw [heq] at hfin
        rcases handleType_phase content prefs ts
            { startIfIdle ts s with
              totalKeystrokes := (startIfIdle ts s).totalKeystrokes + 1 }
            '\n' with hsame | ⟨_, e, he, hok⟩
        · exact absurd (hsame.symm.trans hfin)
            (startIfIdle_phase_of_not_finished ts s hns)
        · refine ⟨'\n', e, rfl, ?_, hok⟩
          have hcx : ({ startIfIdle ts s with
              totalKeystrokes := (startIfIdle ts s).totalKeystrokes + 1 } :
              EngineState).cursorIndex = s.cursorIndex := by
            simp
          rwa [hcx] at he
    | char c2 =>
      by_cases hcd : s.phase = .countdown
      · have hid : handleKey content prefs ts s (.char c2) = s := by
          show handleActionable content prefs ts s (.char c2) = s
          unfold handleActionable
          rw [if_neg (by simp [hns]), if_pos hcd]
        rw [hid] at hfin
        exact absurd hfin hns
      · have hph : s.phase = .idle ∨ s.phase = .running := by
          cases hval : s.phase <;> simp_all
        have heq : handleKey content prefs ts s (.char c2) =
            handleType content prefs ts
              { startIfIdle ts s with
                totalKeystrokes := (startIfIdle ts s).totalKeystrokes + 1 }
              c2 :=
          handleActionable_typing content prefs ts s (.char c2) c2 hph rfl
        rw [heq] at hfin
        rcases handleType_phase content prefs ts
            { startIfIdle ts s with
              totalKeystrokes := (startIfIdle ts s).totalKeystrokes + 1 }
            c2 with hsame | ⟨_, e, he, hok⟩
        · exact absurd (hsame.symm.trans hfin)
            (startIfIdle_phase_of_not_finished ts s hns)
        · refine ⟨c2, e, rfl, ?_, hok⟩
          have hcx : ({ startIfIdle ts s with
              totalKeystrokes := (startIfIdle ts s).totalKeystrokes + 1 } :
              EngineState).cursorIndex = s.cursorIndex := by
            simp
          rwa [hcx] at he

/-- Witness for C10: on content "ab", a mismatching second keystroke
moves the cursor to the end of the content yet the phase stays running. -/
theorem C10_mismatch_never_finishes_witness :
    (handleKey ['a', 'b'] ⟨false, false⟩ 1
        (handleKey ['a', 'b'] ⟨false, false⟩ 0 initialState (.char 'a'))
        (.char 'z')).phase = .running := by
  obtain ⟨h1, _⟩ := C10_mismatch_never_finishes
  exact h1 ['a', 'b'] ⟨false, false⟩ 1
    (handleKey ['a', 'b'] ⟨false, false⟩ 0 initialState (.char 'a'))
    (.char 'z') 'z' 'b' (by decide) rfl (by decide) (by decide)

/-- C5 (evaluation at the failing input): on content "a\n  x" with
requireTabForIndent off, after typing 'a' and Enter correctly
(totalTypedChars = 2) the cursor sits at the start of the indented line;
pressing Tab auto-advances over the two spaces but adds 4 = 2 × 2 to
totalTypedChars (the Tab branch applies the auto-advance update block
twice), ending at totalTypedChars = 6 where the claim and the spec
require 4; the printable path conforms: on the spec scenario
"if x:\n    pass" typing "if x:" and Enter then 'p' auto-advances the
four spaces once, giving totalTypedChars = 11 with 7 keystrokes, all
correct. -/
theorem C5_tab_double_counts_typedChars :
    ((run ['a', '\n', ' ', ' ', 'x'] ⟨false, false⟩ initialState
        [(.char 'a', 0), (.enter, 0), (.tab, 0)]).cursorIndex = 4 ∧
      (run ['a', '\n', ' ', ' ', 'x'] ⟨false, false⟩ initialState
        [(.char 'a', 0), (.enter, 0), (.tab, 0)]).totalTypedChars = 6 ∧
      (run ['a', '\n', ' ', ' ', 'x'] ⟨false, false⟩ initialState
        [(.char 'a', 0), (.enter, 0)]).totalTypedChars = 2 ∧
      (run ['a', '\n', ' ', ' ', 'x'] ⟨false, false⟩ initialState
        [(.char 'a', 0), (.enter, 0), (.tab, 0)]).totalKeystrokes = 3 ∧
      (run ['a', '\n', ' ', ' ', 'x'] ⟨false, false⟩ initialState
        [(.char 'a', 0), (.enter, 0), (.tab, 0)]).wrongChars = ∅) ∧
    ((run ['i', 'f', ' ', 'x', ':', '\n', ' ', ' ', ' ', ' ', 'p', 'a',
        's', 's'] ⟨false, false⟩ initialState
        [(.char 'i', 0), (.char 'f', 0), (.char ' ', 0), (.char 'x', 0),
          (.char ':', 0), (.enter, 0), (.char 'p', 0)]).cursorIndex = 11 ∧
      (run ['i', 'f', ' ', 'x', ':', '\n', ' ', ' ', ' ', ' ', 'p', 'a',
        's', 's'] ⟨false, false⟩ initialState
        [(.char 'i', 0), (.char 'f', 0), (.char ' ', 0), (.char 'x', 0),
          (.char ':', 0), (.enter, 0), (.char 'p', 0)]).totalTypedChars
        = 11 ∧
      (run ['i', 'f', ' ', 'x', ':', '\n', ' ', ' ', ' ', ' ', 'p', 'a',
        's', 's'] ⟨false, false⟩ initialState
        [(.char 'i', 0), (.char 'f', 0), (.char ' ', 0), (.char 'x', 0),
          (.char ':', 0), (.enter, 0), (.char 'p', 0)]).totalKeystrokes
        = 7 ∧
      (run ['i', 'f', ' ', 'x', ':', '\n', ' ', ' ', ' ', ' ', 'p', 'a',
        's', 's'] ⟨false, false⟩ initialState
        [(.char 'i', 0), (.char 'f', 0), (.char ' ', 0), (.char 'x', 0),
          (.char ':', 0), (.enter, 0), (.char 'p', 0)]).correctKeystrokes
        = 7) := by
  constructor
  · refine ⟨?_, ?_, ?_, ?_, ?_⟩ <;> decide
  · refine ⟨?_, ?_, ?_, ?_⟩ <;> decide

/-- C4: from any idle or running state whose (post-auto-advance) expected
character exists, typing a wrong printable character, then Backspace,
then the correct key yields the same wrongChars and the same cursorIndex
as typing only the correct key, while totalKeystrokes counts all three
key presses. -/
theorem C4_backspace_retype_roundtrip (content : List Char) (prefs : Prefs)
    (ts1 ts2 ts3 ts4 : Nat) (s : EngineState) (cw : Char) (k : Key)
    (cr e : Char)
    (hph : s.phase = .idle ∨ s.phase = .running)
    (he : content[(autoAdvanceIndentationIfAllowed content prefs
      s.cursorIndex).nextIndex]? = some e)
    (hwrong : normalizeWhitespace cw ≠ normalizeWhitespace e)
    (hk : keyChar k = some cr)
    (hright : normalizeWhitespace cr = normalizeWhitespace e) :
    (handleKey content prefs ts3 (handleKey content prefs ts2
        (handleKey content prefs ts1 s (.char cw)) .backspace) k).wrongChars
      = (handleKey content prefs ts4 s k).wrongChars ∧
    (handleKey content prefs ts3 (handleKey content prefs ts2
        (handleKey content prefs ts1 s (.char cw)) .backspace) k).cursorIndex
      = (handleKey content prefs ts4 s k).cursorIndex ∧
    (handleKey content prefs ts3 (handleKey content prefs ts2
        (handleKey content prefs ts1 s (.char cw)) .backspace)
        k).totalKeystrokes = s.totalKeystrokes + 3 := by
  have hkey : ∀ (t : Nat) (u : EngineState),
      handleKey content prefs t u k = handleActionable content prefs t u k := by
    intro t u
    cases k
    case char c2 => rfl
    case enter => rfl
    all_goals simp [keyChar] at hk
  set n := (autoAdvanceIndentationIfAllowed content prefs
    s.cursorIndex).nextIndex with hndef
  have hidem : autoAdvanceIndentationIfAllowed content prefs n = ⟨0, n⟩ := by
    rw [hndef]
    exact autoAdvance_idem content prefs s.cursorIndex
  set S1 : EngineState :=
    { startIfIdle ts1 s with
      totalKeystrokes := (startIfIdle ts1 s).totalKeystrokes + 1 } with hS1def
  have hS1c : S1.cursorIndex = s.cursorIndex := by
    rw [hS1def]
    simp
  have hS1w : S1.wrongChars = s.wrongChars := by
    rw [hS1def]
    simp
  have hS1k : S1.totalKeystrokes = s.totalKeystrokes + 1 := by
    rw [hS1def]
    simp
  have hS1p : S1.phase = .running := by
    rw [hS1def]
    show (startIfIdle ts1 s).phase = .running
    rw [startIfIdle_phase]
    rcases hph with h | h <;> simp [h]
  have he1 : content[(autoAdvanceIndentationIfAllowed content prefs
      S1.cursorIndex).nextIndex]? = some e := by
    rw [hS1c]
    exact he
  set A1 := handleKey content prefs ts1 s (.char cw) with hA1def
  have e1 : A1 = handleType content prefs ts1 S1 cw := by
    rw [hA1def, show handleKey content prefs ts1 s (.char cw) =
        handleActionable content prefs ts1 s (.char cw) from rfl,
      handleActionable_typing content prefs ts1 s (.char cw) cw hph rfl,
      ← hS1def]
  rw [handleType_mismatch_eq content prefs ts1 S1 cw e he1 hwrong] at e1
  have hA1c : A1.cursorIndex = n + 1 := by
    rw [e1]
    dsimp only
    rw [hS1c, ← hndef]
  have hA1w : A1.wrongChars =
      insert n (eraseRange s.wrongChars s.cursorIndex n) := by
    rw [e1]
    dsimp only
    rw [hS1c, hS1w, ← hndef]
  have hA1k : A1.totalKeystrokes = s.totalKeystrokes + 1 := by
    rw [e1]
    dsimp only
    try rw [hS1k]
    rw [startIfIdle_totalKeystrokes]
  have hA1p : A1.phase = .running := by
    rw [e1]
    dsimp only
    rw [hS1p]
  set A2 := handleKey content prefs ts2 A1 .backspace with hA2def
  have e2 : A2 = { A1 with
      totalKeystrokes := A1.totalKeystrokes + 1
      cursorIndex := A1.cursorIndex - 1
      wrongChars := A1.wrongChars.erase (A1.cursorIndex - 1) } := by
    rw [hA2def, show handleKey content prefs ts2 A1 .backspace =
        handleActionable content prefs ts2 A1 .backspace from rfl,
      handleActionable_backspace_notfin content prefs ts2 A1
        (Or.inr hA1p) (by rw [hA1c]; omega),
      startIfIdle_phase_of_running ts2 A1 hA1p]
  have hA2c : A2.cursorIndex = n := by
    rw [e2]
    dsimp only
    rw [hA1c]
    omega
  have hA2w : A2.wrongChars =
      (eraseRange s.wrongChars s.cursorIndex n).erase n := by
    rw [e2]
    dsimp only
    rw [hA1w, hA1c, Nat.add_sub_cancel]
    exact Finset.erase_insert_eq_erase _ _
  have hA2k : A2.totalKeystrokes = s.totalKeystrokes + 1 + 1 := by
    rw [e2]
    dsimp only
    rw [hA1k]
  have hA2p : A2.phase = .running := by
    rw [e2]
    dsimp only
    exact hA1p
  set A3 := handleKey content prefs ts3 A2 k with hA3def
  have e3 : A3 = handleType content prefs ts3
      { A2 with totalKeystrokes := A2.totalKeystrokes + 1 } cr := by
    rw [hA3def, hkey ts3 A2,
      handleActionable_typing content prefs ts3 A2 k cr (Or.inr hA2p) hk,
      startIfIdle_phase_of_running ts3 A2 hA2p]
  have he3 : content[(autoAdvanceIndentationIfAllowed content prefs
      ({ A2 with totalKeystrokes := A2.totalKeystrokes + 1 } :
        EngineState).cursorIndex).nextIndex]? = some e := by
    show content[(autoAdvanceIndentationIfAllowed content prefs
      A2.cursorIndex).nextIndex]? = some e
    rw [hA2c, hidem]
    show content[n]? = some e
    rw [hndef]
    exact he
  rw [handleType_match_eq content prefs ts3
    { A2 with totalKeystrokes := A2.totalKeystrokes + 1 } cr e he3
    hright] at e3
  set B := handleKey content prefs ts4 s k with hBdef
  set S4 : EngineState :=
    { startIfIdle ts4 s with
      totalKeystrokes := (startIfIdle ts4 s).totalKeystrokes + 1 } with hS4def
  have hS4c : S4.cursorIndex = s.cursorIndex := by
    rw [hS4def]
    simp
  have hS4w : S4.wrongChars = s.wrongChars := by
    rw [hS4def]
    simp
  have he4 : content[(autoAdvanceIndentationIfAllowed content prefs
      S4.cursorIndex).nextIndex]? = some e := by
    rw [hS4c]
    exact he
  have e4 : B = handleType content prefs ts4 S4 cr := by
    rw [hBdef, hkey ts4 s,
      handleActionable_typing content prefs ts4 s k cr hph hk, ← hS4def]
  rw [handleType_match_eq content prefs ts4 S4 cr e he4 hright] at e4
  refine ⟨?_, ?_, ?_⟩
  · rw [e3, e4]
    dsimp only
    rw [hA2c, hA2w, hS4c, hS4w, hidem]
    dsimp only
    rw [eraseRange_self, Finset.erase_idem]
    try rw [← hndef]
  · rw [e3, e4]
    dsimp only
    rw [hA2c, hS4c, hidem]
    try dsimp only
    try rw [← hndef]
  · rw [e3]
    dsimp only
    rw [hA2k]

/-- Witness for C4: the spec scenario on content "hello": type 'x'
(wrong), Backspace, then 'h'. -/
theorem C4_backspace_retype_roundtrip_witness :
    (handleKey ['h', 'e', 'l', 'l', 'o'] ⟨false, false⟩ 2
        (handleKey ['h', 'e', 'l', 'l', 'o'] ⟨false, false⟩ 1
          (handleKey ['h', 'e', 'l', 'l', 'o'] ⟨false, false⟩ 0
            initialState (.char 'x')) .backspace)
        (.char 'h')).wrongChars =
      (handleKey ['h', 'e', 'l', 'l', 'o'] ⟨false, false⟩ 3 initialState
        (.char 'h')).wrongChars ∧
    (handleKey ['h', 'e', 'l', 'l', 'o'] ⟨false, false⟩ 2
        (handleKey ['h', 'e', 'l', 'l', 'o'] ⟨false, false⟩ 1
          (handleKey ['h', 'e', 'l', 'l', 'o'] ⟨false, false⟩ 0
            initialState (.char 'x')) .backspace)
        (.char 'h')).cursorIndex =
      (handleKey ['h', 'e', 'l', 'l', 'o'] ⟨false, false⟩ 3 initialState
        (.char 'h')).cursorIndex ∧
    (handleKey ['h', 'e', 'l', 'l', 'o'] ⟨false, false⟩ 2
        (handleKey ['h', 'e', 'l', 'l', 'o'] ⟨false, false⟩ 1
          (handleKey ['h', 'e', 'l', 'l', 'o'] ⟨false, false⟩ 0
            initialState (.char 'x')) .backspace)
        (.char 'h')).totalKeystrokes =
      initialState.totalKeystrokes + 3 :=
  C4_backspace_retype_roundtrip ['h', 'e', 'l', 'l', 'o'] ⟨false, false⟩
    0 1 2 3 initialState 'x' (.char 'h') 'h' 'h' (Or.inl rfl) (by decide)
    (by decide) rfl rfl

end CodeSprint
